import Mathlib

/-!
# Verification of the DnD-Roller expression parser and evaluator

A shallow embedding of `dnd-roller.py`: the field splitter
(`ParseTree.parse_fields`), the root locator (`ParseTree.find_root_node`),
the recursive tree builder (`ParseTree.__init__` / `ParseTree.parse_node`,
embedded here as `parseTree`), the multi-die expansion
(`ParseTree.multi_expression` / `ParseTree.make_single_roll`), the leaf
constructor (`ValueNode.__init__`, embedded as `mkValueNode`), rendering
(`OpNode.__str__` / `ValueNode.__str__`, embedded as `Node.str`) and the
regex helpers (`get_multiplier`, `is_multi_die`, `get_die_type`).

Python strings are embedded as `List Char`.  Python `AssertionError` /
`ValueError` sites are embedded as an explicit error type `Err`, one
constructor per distinct failure site, following the error taxonomy the
design document attaches to the assertion sites.  The process-wide random
generator is embedded as a stream `Nat → Nat` together with a cursor: the
`k`-th call of `random.randint(1, m)` returns `1 + stream k % m`, which is
exactly the set of values the Python call can return, and each die leaf
advances the cursor by one.
-/

/-- A field of the split expression: an operator marker or an operand
substring (Python `str`). -/
abbrev FieldStr := List Char

/-- The `"+"` operator field. -/
def plusF : FieldStr := ['+']

/-- The `"-"` operator field. -/
def minusF : FieldStr := ['-']

/-- Distinct failure kinds, one per assertion/exception site of the source. -/
inductive Err where
  /-- Site: the `assert` in `parse_fields` and the boundary checks in `parse_node`:
  an operator with no operand where one is required. -/
  | malformedOperatorPlacement
  /-- Site: the `assert len(fields) == 1` (message "No op fields w/ multiple values")
  in `find_root_node`. -/
  | ambiguousOrMissingOperand
  /-- Site: the raise of "doesn't look like a die to me" in `get_die_type`. -/
  | malformedDieTerm
  /-- Site: the `ValueError` from `int(field)` in `ValueNode.__init__`. -/
  | invalidLiteral
  /-- Site: the `ValueError` from `random.randint(lo, hi)` when `hi < lo`. -/
  | invalidRandomRange
deriving DecidableEq, Repr

deriving instance DecidableEq for Except

/-- Numeric value of a digit-character run (what Python `int` does to a
string of decimal digits). -/
def digitsVal (l : List Char) : Nat :=
  l.foldl (fun a c => a * 10 + (c.toNat - 48)) 0

/-- Decimal digit characters of a natural number, most significant first
(what Python `"{}".format` prints for a nonnegative int). -/
def natChars (n : Nat) : List Char :=
  if h : n < 10 then [Char.ofNat (n + 48)]
  else natChars (n / 10) ++ [Char.ofNat (n % 10 + 48)]
decreasing_by exact Nat.div_lt_self (by omega) (by omega)

/-- Decimal digit characters of an integer (Python `"{}".format` on int). -/
def intChars (i : Int) : List Char :=
  if i < 0 then '-' :: natChars i.natAbs else natChars i.toNat

/-- Python `str.strip()`: remove surrounding whitespace. -/
def trim (l : List Char) : List Char :=
  ((l.dropWhile Char.isWhitespace).reverse.dropWhile Char.isWhitespace).reverse

/-- Embeds `DIE_MULT_REGEXP.match(field)` with `DIE_MULT_REGEXP = "[0-9]*d"`
followed by the multiplier extraction of `get_multiplier`: the regex matches
(anchored at the start) iff the maximal leading digit run is immediately
followed by `d`; the multiplier is 1 when that run is empty or when the
regex does not match, else the value of the run. -/
def get_multiplier (field : FieldStr) : Nat :=
  match field.dropWhile Char.isDigit with
  | 'd' :: _ =>
      if field.takeWhile Char.isDigit = [] then 1
      else digitsVal (field.takeWhile Char.isDigit)
  | _ => 1

/-- Embeds `is_multi_die`: a die roll with multiplier higher than 1. -/
def is_multi_die (field : FieldStr) : Bool :=
  decide (1 < get_multiplier field)

/-- Embeds `DIE_TYPE_REGEXP.search(field)` with `DIE_TYPE_REGEXP = "d[0-9]+"`
followed by the face extraction of `get_die_type`: the leftmost `d` that is
immediately followed by at least one digit, paired with the maximal digit
run after it; raises (`malformedDieTerm`) when no such `d` exists. -/
def get_die_type : FieldStr → Except Err Nat
  | [] => .error .malformedDieTerm
  | c :: rest =>
      if c = 'd' ∧ rest.takeWhile Char.isDigit ≠ [] then
        .ok (digitsVal (rest.takeWhile Char.isDigit))
      else get_die_type rest

/-- Embeds Python `int(field)` (the core used here: optional surrounding
whitespace, optional sign, then a nonempty decimal digit run). -/
def parse_int (field : FieldStr) : Except Err Int :=
  match trim field with
  | '+' :: rest =>
      if rest ≠ [] ∧ rest.all Char.isDigit then .ok (digitsVal rest)
      else .error .invalidLiteral
  | '-' :: rest =>
      if rest ≠ [] ∧ rest.all Char.isDigit then .ok (-(digitsVal rest : Int))
      else .error .invalidLiteral
  | t =>
      if t ≠ [] ∧ t.all Char.isDigit then .ok (digitsVal t)
      else .error .invalidLiteral

/-- Embeds `random.randint(lo, hi)`: some value of `[lo, hi]`, here the one
selected by `seed`; `ValueError` when the range is empty. -/
def randint (lo hi seed : Nat) : Except Err Int :=
  if lo ≤ hi then .ok ((lo + seed % (hi - lo + 1) : Nat) : Int)
  else .error .invalidRandomRange

/-- The character loop of `ParseTree.parse_fields`, with the accumulated
`fields` list and the current buffer `curr` made explicit. -/
def parse_fields_aux (fields : List FieldStr) (curr : List Char) :
    List Char → Except Err (List FieldStr)
  | [] => .ok (if curr ≠ [] then fields ++ [trim curr] else fields)
  | c :: rest =>
      if c = '+' then
        if 0 < fields.length ∨ curr ≠ [] then
          parse_fields_aux (fields ++ [trim curr, plusF]) [] rest
        else .error .malformedOperatorPlacement
      else if c = '-' then
        if 0 < fields.length ∨ curr ≠ [] then
          if curr = [] ∧ fields.getLast? = some minusF then
            parse_fields_aux fields curr rest
          else parse_fields_aux (fields ++ [trim curr, minusF]) [] rest
        else .error .malformedOperatorPlacement
      else parse_fields_aux fields (curr ++ [c]) rest

/-- Embeds `ParseTree.parse_fields`: splits a raw expression string into a list of
string fields. -/
def parse_fields (s : List Char) : Except Err (List FieldStr) :=
  parse_fields_aux [] [] s

/-- First index of `x` in `l` (Python `list.index`, total: returns `l.length`
when `x` is absent; only used under a membership guard, as in the source). -/
def firstIdx (x : FieldStr) : List FieldStr → Nat
  | [] => 0
  | f :: rest => if f = x then 0 else firstIdx x rest + 1

/-- Embeds `ParseTree.find_root_node`: index of the first `"+"` if any `"+"` field
exists, else index of the last `"-"` (computed, as in the source, as
`len(fields) - 1 - list(reversed(fields)).index("-")`), else demand a
single field and answer 0. -/
def find_root_node (fields : List FieldStr) : Except Err Nat :=
  if plusF ∈ fields then .ok (firstIdx plusF fields)
  else if minusF ∈ fields then
    .ok (fields.length - 1 - firstIdx minusF fields.reverse)
  else if fields.length = 1 then .ok 0
  else .error .ambiguousOrMissingOperand

/-- The operator tag of an operation node (`operator.add` / `operator.sub`). -/
inductive Op where
  | add
  | sub
deriving DecidableEq, Repr

/-- Apply an operator tag (`self.value = op(left.value, right.value)`). -/
def Op.apply : Op → Int → Int → Int
  | .add, a, b => a + b
  | .sub, a, b => a - b

/-- The operator's display character (`OpNode.__str__`). -/
def Op.char : Op → Char
  | .add => '+'
  | .sub => '-'

/-- An expression-tree node: `ValueNode` (leaf holding the original field
string, the die flag, the face count when a die, and the resolved value) or
`OpNode` (operation with two children and its value, computed at
construction). -/
inductive Node where
  | ValueNode (field : FieldStr) (isdie : Bool) (max_value : Option Nat)
      (value : Int)
  | OpNode (left right : Node) (oper : Op) (value : Int)
deriving DecidableEq, Repr

/-- The stored `value` attribute of a node. -/
def Node.val : Node → Int
  | .ValueNode _ _ _ v => v
  | .OpNode _ _ _ v => v

/-- Embeds `OpNode.__str__` and `ValueNode.__str__`: the human-readable rendering. -/
def Node.str : Node → List Char
  | .OpNode l r o _ => l.str ++ ' ' :: o.char :: ' ' :: r.str
  | .ValueNode _ true maxv v =>
      if v = ((maxv.getD 0 : Nat) : Int) then
        '!' :: '*' :: intChars v ++ '*' :: '!' :: '(' :: 'd' ::
          natChars (maxv.getD 0) ++ [')']
      else intChars v ++ '(' :: 'd' :: natChars (maxv.getD 0) ++ [')']
  | .ValueNode _ false _ v => intChars v

/-- Embeds `ValueNode.__init__`: classify the field by containment of `'d'`; a die
field draws `randint(1, get_die_type(field))` from the stream at cursor `k`
and advances the cursor, any other field parses as an integer literal. -/
def mkValueNode (field : FieldStr) (stream : Nat → Nat) (k : Nat) :
    Except Err (Node × Nat) :=
  if field.contains 'd' then
    match get_die_type field with
    | .error e => .error e
    | .ok m =>
        match randint 1 m (stream k) with
        | .error e => .error e
        | .ok v => .ok (.ValueNode field true (some m) v, k + 1)
  else
    match parse_int field with
    | .error e => .error e
    | .ok v => .ok (.ValueNode field false none v, k)

/-- Embeds `ParseTree.make_single_roll`: the string "1d" followed by the decimal face count. -/
def make_single_roll (field : FieldStr) : Except Err FieldStr :=
  match get_die_type field with
  | .error e => .error e
  | .ok t => .ok ('1' :: 'd' :: natChars t)

/-- Embeds `ParseTree.multi_expression` after its single call of
`make_single_roll`: the single roll followed by `mult - 1` further copies,
each preceded by a `"+"` field.  (The source computes the single roll once
and replicates it; its loop produces exactly this interleaving.) -/
def multi_expression (single : FieldStr) (mult : Nat) : List FieldStr :=
  single :: (List.replicate (mult - 1) [plusF, single]).flatten

/-- Excess weight of a field: its multiplier when it is a multi-die field,
0 otherwise (termination measure component for the builder). -/
def fieldExcess (f : FieldStr) : Nat :=
  if is_multi_die f then get_multiplier f else 0

/-- Total excess weight of a field sequence. -/
def sumExcess (fields : List FieldStr) : Nat :=
  (fields.map fieldExcess).sum

theorem sumExcess_take_le (fields : List FieldStr) (n : Nat) :
    sumExcess (fields.take n) ≤ sumExcess fields := by
  have h : fields = fields.take n ++ fields.drop n := (List.take_append_drop n fields).symm
  unfold sumExcess
  calc ((fields.take n).map fieldExcess).sum
      ≤ ((fields.take n).map fieldExcess).sum + ((fields.drop n).map fieldExcess).sum :=
        Nat.le_add_right _ _
    _ = (fields.map fieldExcess).sum := by
        conv_rhs => rw [h]
        simp [List.map_append, List.sum_append]

theorem sumExcess_drop_le (fields : List FieldStr) (n : Nat) :
    sumExcess (fields.drop n) ≤ sumExcess fields := by
  have h : fields = fields.take n ++ fields.drop n := (List.take_append_drop n fields).symm
  unfold sumExcess
  calc ((fields.drop n).map fieldExcess).sum
      ≤ ((fields.take n).map fieldExcess).sum + ((fields.drop n).map fieldExcess).sum :=
        Nat.le_add_left _ _
    _ = (fields.map fieldExcess).sum := by
        conv_rhs => rw [h]
        simp [List.map_append, List.sum_append]

theorem firstIdx_lt_length {x : FieldStr} {l : List FieldStr} (h : x ∈ l) :
    firstIdx x l < l.length := by
  induction l with
  | nil => cases h
  | cons f rest ih =>
      by_cases hf : f = x
      · simp [firstIdx, hf]
      · rcases List.mem_cons.mp h with h1 | h2
        · exact absurd h1.symm hf
        · simp only [firstIdx, if_neg hf, List.length_cons]
          exact Nat.succ_lt_succ (ih h2)

theorem getD_firstIdx {x : FieldStr} {l : List FieldStr} (h : x ∈ l) :
    l.getD (firstIdx x l) [] = x := by
  induction l with
  | nil => cases h
  | cons f rest ih =>
      by_cases hf : f = x
      · simp [firstIdx, hf]
      · rcases List.mem_cons.mp h with h1 | h2
        · exact absurd h1.symm hf
        · simp only [firstIdx, if_neg hf]
          simpa using ih h2

theorem getD_lt_firstIdx {x : FieldStr} {l : List FieldStr} {j : Nat}
    (hj : j < firstIdx x l) : l.getD j [] ≠ x := by
  induction l generalizing j with
  | nil => simp [firstIdx] at hj
  | cons f rest ih =>
      by_cases hf : f = x
      · simp [firstIdx, hf] at hj
      · simp only [firstIdx, if_neg hf] at hj
        cases j with
        | zero => simpa using hf
        | succ j' =>
            simp only [List.getD_cons_succ]
            exact ih (Nat.lt_of_succ_lt_succ hj)

theorem find_root_lt {fields : List FieldStr} {root : Nat}
    (h : find_root_node fields = .ok root) : root < fields.length := by
  unfold find_root_node at h
  by_cases hp : plusF ∈ fields
  · rw [if_pos hp] at h
    cases h
    exact firstIdx_lt_length hp
  · rw [if_neg hp] at h
    by_cases hm : minusF ∈ fields
    · rw [if_pos hm] at h
      cases h
      have h1 : 0 < fields.length := List.length_pos.mpr (List.ne_nil_of_mem hm)
      omega
    · rw [if_neg hm] at h
      by_cases hl : fields.length = 1
      · rw [if_pos hl] at h
        cases h
        omega
      · rw [if_neg hl] at h
        cases h

/-- When the located root field is not an operator, the field sequence is a
single operand (the root locator's final branch demands exactly one field). -/
theorem find_root_operand {fields : List FieldStr} {root : Nat}
    (h : find_root_node fields = .ok root)
    (hp : fields.getD root [] ≠ plusF) (hm : fields.getD root [] ≠ minusF) :
    fields = [fields.getD root []] ∧ root = 0 := by
  unfold find_root_node at h
  by_cases hpm : plusF ∈ fields
  · rw [if_pos hpm] at h
    cases h
    exact absurd (getD_firstIdx hpm) hp
  · rw [if_neg hpm] at h
    by_cases hmm : minusF ∈ fields
    · rw [if_pos hmm] at h
      cases h
      have h1 : minusF ∈ fields.reverse := List.mem_reverse.mpr hmm
      have h2 : firstIdx minusF fields.reverse < fields.length := by
        have := firstIdx_lt_length h1
        simpa using this
      have h3 : fields.reverse.getD (firstIdx minusF fields.reverse) [] = minusF :=
        getD_firstIdx h1
      rw [List.getD_eq_getElem?_getD] at h3
      rw [List.getElem?_reverse (by simpa using h2)] at h3
      rw [List.getD_eq_getElem?_getD] at hm
      exact absurd h3 hm
    · rw [if_neg hmm] at h
      by_cases hl : fields.length = 1
      · rw [if_pos hl] at h
        cases h
        match fields, hl with
        | [f], _ => exact ⟨rfl, rfl⟩
      · rw [if_neg hl] at h
        cases h

theorem get_multiplier_single (rest : List Char) :
    get_multiplier ('1' :: 'd' :: rest) = 1 := by
  have h1 : Char.isDigit '1' = true := by decide
  have hd : Char.isDigit 'd' = false := by decide
  simp [get_multiplier, List.dropWhile_cons, List.takeWhile_cons, h1, hd, digitsVal]

theorem fieldExcess_make_single {f s : FieldStr} (h : make_single_roll f = .ok s) :
    fieldExcess s = 0 := by
  unfold make_single_roll at h
  cases hg : get_die_type f with
  | error e => rw [hg] at h; cases h
  | ok t =>
      rw [hg] at h
      cases h
      simp [fieldExcess, is_multi_die, get_multiplier_single]

theorem sumExcess_append (a b : List FieldStr) :
    sumExcess (a ++ b) = sumExcess a + sumExcess b := by
  simp [sumExcess, List.map_append, List.sum_append]

theorem sumExcess_rep {single : FieldStr} (h : fieldExcess single = 0) (j : Nat) :
    sumExcess ((List.replicate j [plusF, single]).flatten) = 0 := by
  induction j with
  | zero => simp [sumExcess]
  | succ j ih =>
      rw [List.replicate_succ, List.flatten_cons, sumExcess_append, ih]
      have h4 : fieldExcess plusF = 0 := by decide
      simp [sumExcess, h, h4]

theorem sumExcess_multi {single : FieldStr} (h : fieldExcess single = 0) (m : Nat) :
    sumExcess (multi_expression single m) = 0 := by
  unfold multi_expression
  rw [show single :: (List.replicate (m - 1) [plusF, single]).flatten
      = [single] ++ (List.replicate (m - 1) [plusF, single]).flatten from rfl]
  rw [sumExcess_append, sumExcess_rep h]
  simp [sumExcess, h]

theorem flatten_rep_length (single : FieldStr) (j : Nat) :
    ((List.replicate j [plusF, single]).flatten).length = 2 * j := by
  induction j with
  | zero => simp
  | succ j ih =>
      rw [List.replicate_succ, List.flatten_cons]
      rw [List.length_append, ih]
      simp only [List.length_cons, List.length_nil]
      omega

theorem multi_expression_length (single : FieldStr) (m : Nat) :
    (multi_expression single m).length = 2 * (m - 1) + 1 := by
  unfold multi_expression
  simp only [List.length_cons, flatten_rep_length]

/-- Embeds `ParseTree.__init__` composed with `ParseTree.parse_node`: locate the
root field, then either build an operation node over the two slices, expand
a multi-die operand and rebuild, or construct a leaf.  The boundary check
`root = fields.length` is the source's literal (vacuous) second assertion
`assert root_index != len(fields)`. -/
def parseTree (fields : List FieldStr) (stream : Nat → Nat) (k : Nat) :
    Except Err (Node × Nat) :=
  match hr : find_root_node fields with
  | .error e => .error e
  | .ok root =>
      if hp : fields.getD root [] = plusF then
        if root = 0 then .error .malformedOperatorPlacement
        else if root = fields.length then .error .malformedOperatorPlacement
        else
          match parseTree (fields.take root) stream k with
          | .error e => .error e
          | .ok (l, k1) =>
              match parseTree (fields.drop (root + 1)) stream k1 with
              | .error e => .error e
              | .ok (r, k2) => .ok (.OpNode l r .add (l.val + r.val), k2)
      else if hm : fields.getD root [] = minusF then
        if root = 0 then .error .malformedOperatorPlacement
        else if root = fields.length then .error .malformedOperatorPlacement
        else
          match parseTree (fields.take root) stream k with
          | .error e => .error e
          | .ok (l, k1) =>
              match parseTree (fields.drop (root + 1)) stream k1 with
              | .error e => .error e
              | .ok (r, k2) => .ok (.OpNode l r .sub (l.val - r.val), k2)
      else if hmd : is_multi_die (fields.getD root []) then
        match hs : make_single_roll (fields.getD root []) with
        | .error e => .error e
        | .ok single =>
            parseTree (multi_expression single (get_multiplier (fields.getD root [])))
              stream k
      else mkValueNode (fields.getD root []) stream k
termination_by 2 * sumExcess fields + fields.length
decreasing_by
  · have hlt := find_root_lt hr
    have h1 := sumExcess_take_le fields root
    have h2 : (fields.take root).length = root := by
      rw [List.length_take]
      omega
    omega
  · have hlt := find_root_lt hr
    have h1 := sumExcess_drop_le fields (root + 1)
    have h2 : (fields.drop (root + 1)).length = fields.length - (root + 1) :=
      List.length_drop _ _
    omega
  · have hlt := find_root_lt hr
    have h1 := sumExcess_take_le fields root
    have h2 : (fields.take root).length = root := by
      rw [List.length_take]
      omega
    omega
  · have hlt := find_root_lt hr
    have h1 := sumExcess_drop_le fields (root + 1)
    have h2 : (fields.drop (root + 1)).length = fields.length - (root + 1) :=
      List.length_drop _ _
    omega
  · obtain ⟨hf, hroot⟩ := find_root_operand hr hp hm
    have hfe := fieldExcess_make_single hs
    have h1 : sumExcess (multi_expression single (get_multiplier (fields.getD root []))) = 0 :=
      sumExcess_multi hfe _
    have h2 := multi_expression_length single (get_multiplier (fields.getD root []))
    have h3 : sumExcess fields = fieldExcess (fields.getD root []) := by
      conv_lhs => rw [hf]
      simp [sumExcess]
    have h3x : fieldExcess (fields.getD root []) = get_multiplier (fields.getD root []) := by
      unfold fieldExcess
      rw [hmd]
      simp
    have h4 : fields.length = 1 := by rw [hf]; rfl
    have h5 : 1 < get_multiplier (fields.getD root []) := by
      have h6 : is_multi_die (fields.getD root []) = true := hmd
      unfold is_multi_die at h6
      exact of_decide_eq_true h6
    omega

/-- The caller contract (`main` body for one input line): split, build,
answer the pair (total value, rendered string). -/
def evaluate (s : List Char) (stream : Nat → Nat) :
    Except Err (Int × List Char) :=
  match parse_fields s with
  | .error e => .error e
  | .ok fields =>
      match parseTree fields stream 0 with
      | .error e => .error e
      | .ok (t, _) => .ok (t.val, t.str)


theorem parseTree_err {fields : List FieldStr} {stream : Nat → Nat} {k : Nat} {e : Err}
    (h : find_root_node fields = .error e) :
    parseTree fields stream k = .error e := by
  rw [parseTree.eq_def]
  split
  · next e' he => rw [h] at he; cases he; rfl
  · next root hr => rw [h] at hr; cases hr

theorem parseTree_boundary {fields : List FieldStr} {stream : Nat → Nat} {k root : Nat}
    (hr : find_root_node fields = .ok root)
    (hop : fields.getD root [] = plusF ∨ fields.getD root [] = minusF)
    (h0 : root = 0 ∨ root = fields.length) :
    parseTree fields stream k = .error .malformedOperatorPlacement := by
  rw [parseTree.eq_def]
  split
  · next e' he => rw [hr] at he; cases he
  · next root' hr' =>
      rw [hr] at hr'
      cases hr'
      rcases hop with hp | hm
      · rw [dif_pos hp]
        rcases h0 with h0 | h0
        · rw [if_pos h0]
        · rw [if_neg]
          · rw [if_pos h0]
          · intro hz
            subst hz
            have := find_root_lt hr
            omega
      · have hpne : fields.getD root [] ≠ plusF := by rw [hm]; decide
        rw [dif_neg hpne, dif_pos hm]
        rcases h0 with h0 | h0
        · rw [if_pos h0]
        · rw [if_neg]
          · rw [if_pos h0]
          · intro hz
            subst hz
            have := find_root_lt hr
            omega

theorem parseTree_op {fields : List FieldStr} {stream : Nat → Nat} {k root : Nat}
    {o : Op} (hr : find_root_node fields = .ok root)
    (hop : (fields.getD root [] = plusF ∧ o = .add) ∨
           (fields.getD root [] = minusF ∧ o = .sub))
    (h0 : root ≠ 0) (hl : root ≠ fields.length) :
    parseTree fields stream k =
      match parseTree (fields.take root) stream k with
      | .error e => .error e
      | .ok (l, k1) =>
          match parseTree (fields.drop (root + 1)) stream k1 with
          | .error e => .error e
          | .ok (r, k2) => .ok (.OpNode l r o (o.apply l.val r.val), k2) := by
  rw [parseTree.eq_def]
  split
  · next e' he => rw [hr] at he; cases he
  · next root' hr' =>
      rw [hr] at hr'
      cases hr'
      rcases hop with ⟨hp, ho⟩ | ⟨hm, ho⟩
      · subst ho
        rw [dif_pos hp, if_neg h0, if_neg hl]
        rfl
      · subst ho
        have hpne : fields.getD root [] ≠ plusF := by rw [hm]; decide
        rw [dif_neg hpne, dif_pos hm, if_neg h0, if_neg hl]
        rfl

theorem parseTree_multi {fields : List FieldStr} {stream : Nat → Nat} {k root : Nat}
    {single : FieldStr} (hr : find_root_node fields = .ok root)
    (hp : fields.getD root [] ≠ plusF) (hm : fields.getD root [] ≠ minusF)
    (hmd : is_multi_die (fields.getD root []) = true)
    (hs : make_single_roll (fields.getD root []) = .ok single) :
    parseTree fields stream k =
      parseTree (multi_expression single (get_multiplier (fields.getD root []))) stream k := by
  rw [parseTree.eq_def]
  split
  · next e' he => rw [hr] at he; cases he
  · next root' hr' =>
      rw [hr] at hr'
      cases hr'
      rw [dif_neg hp, dif_neg hm, dif_pos hmd]
      split
      · next e he => rw [hs] at he; cases he
      · next single' hs' =>
          rw [hs] at hs'
          cases hs'
          rfl

theorem parseTree_multi_err {fields : List FieldStr} {stream : Nat → Nat} {k root : Nat}
    {e : Err} (hr : find_root_node fields = .ok root)
    (hp : fields.getD root [] ≠ plusF) (hm : fields.getD root [] ≠ minusF)
    (hmd : is_multi_die (fields.getD root []) = true)
    (hs : make_single_roll (fields.getD root []) = .error e) :
    parseTree fields stream k = .error e := by
  rw [parseTree.eq_def]
  split
  · next e' he => rw [hr] at he; cases he
  · next root' hr' =>
      rw [hr] at hr'
      cases hr'
      rw [dif_neg hp, dif_neg hm, dif_pos hmd]
      split
      · next e' he => rw [hs] at he; cases he; rfl
      · next single' hs' => rw [hs] at hs'; cases hs'

theorem parseTree_leaf {fields : List FieldStr} {stream : Nat → Nat} {k root : Nat}
    (hr : find_root_node fields = .ok root)
    (hp : fields.getD root [] ≠ plusF) (hm : fields.getD root [] ≠ minusF)
    (hmd : is_multi_die (fields.getD root []) = false) :
    parseTree fields stream k = mkValueNode (fields.getD root []) stream k := by
  rw [parseTree.eq_def]
  split
  · next e' he => rw [hr] at he; cases he
  · next root' hr' =>
      rw [hr] at hr'
      cases hr'
      rw [dif_neg hp, dif_neg hm, dif_neg (by rw [hmd]; decide)]

/-- Check of a constructed tree: every operation node's stored value is the
operator applied to its children's stored values. -/
def Node.wellValued : Node → Bool
  | .ValueNode _ _ _ _ => true
  | .OpNode l r o v => (v == o.apply l.val r.val) && l.wellValued && r.wellValued

/-- Number of die leaves of a tree. -/
def Node.dieCount : Node → Nat
  | .ValueNode _ isdie _ _ => if isdie then 1 else 0
  | .OpNode l r _ _ => l.dieCount + r.dieCount

/-- Check of a constructed tree: no leaf field is a multi-die term. -/
def Node.leavesOk : Node → Bool
  | .ValueNode f _ _ _ => !is_multi_die f
  | .OpNode l r _ _ => l.leavesOk && r.leavesOk

theorem mkValueNode_ok {field : FieldStr} {stream : Nat → Nat} {k : Nat}
    {t : Node} {kx : Nat} (h : mkValueNode field stream k = .ok (t, kx)) :
    t.wellValued = true ∧ t.leavesOk = !is_multi_die field ∧ kx = k + t.dieCount := by
  unfold mkValueNode at h
  by_cases hd : field.contains 'd'
  · rw [if_pos hd] at h
    cases hg : get_die_type field with
    | error e =>
        simp only [hg] at h
        cases h
    | ok m =>
        simp only [hg] at h
        cases hv : randint 1 m (stream k) with
        | error e =>
            simp only [hv] at h
            cases h
        | ok v =>
            simp only [hv] at h
            obtain ⟨ht, hk⟩ := Prod.mk.injEq .. ▸ (Except.ok.injEq .. ▸ h)
            subst ht hk
            refine ⟨rfl, rfl, ?_⟩
            simp [Node.dieCount]
  · rw [if_neg hd] at h
    cases hv : parse_int field with
    | error e =>
        simp only [hv] at h
        cases h
    | ok v =>
        simp only [hv] at h
        obtain ⟨ht, hk⟩ := Prod.mk.injEq .. ▸ (Except.ok.injEq .. ▸ h)
        subst ht hk
        refine ⟨rfl, rfl, ?_⟩
        simp [Node.dieCount]

/-- Structural invariant of every successfully built tree: operation values
are consistent with their children, no leaf field is multi-die, and the
random cursor advanced by exactly the number of die leaves (each die was
rolled exactly once, at construction). -/
theorem parseTree_invariant :
    ∀ (fields : List FieldStr) (stream : Nat → Nat) (k : Nat) (t : Node) (kx : Nat),
      parseTree fields stream k = .ok (t, kx) →
      t.wellValued = true ∧ t.leavesOk = true ∧ kx = k + t.dieCount := by
  intro fields stream k
  induction fields, stream, k using parseTree.induct with
  | case1 fields stream k e hr =>
      intro t kx h
      rw [parseTree_err hr] at h
      cases h
  | case2 fields stream k hr hp =>
      intro t kx h
      rw [parseTree_boundary hr (Or.inl hp) (Or.inl rfl)] at h
      cases h
  | case3 fields stream k hr hp h0 =>
      intro t kx h
      rw [parseTree_boundary hr (Or.inl hp) (Or.inr rfl)] at h
      cases h
  | case4 fields stream k root hr hp h0 hl e hTake ih1 =>
      intro t kx h
      rw [parseTree_op (o := .add) hr (Or.inl ⟨hp, rfl⟩) h0 hl] at h
      simp only [hTake] at h
      cases h
  | case5 fields stream k root hr hp h0 hl l k1 hTake e hDrop ih1 ih2 =>
      intro t kx h
      rw [parseTree_op (o := .add) hr (Or.inl ⟨hp, rfl⟩) h0 hl] at h
      simp only [hTake, hDrop] at h
      cases h
  | case6 fields stream k root hr hp h0 hl l k1 hTake r k2 hDrop ih1 ih2 =>
      intro t kx h
      rw [parseTree_op (o := .add) hr (Or.inl ⟨hp, rfl⟩) h0 hl] at h
      simp only [hTake, hDrop] at h
      obtain ⟨ht, hk⟩ := Prod.mk.injEq .. ▸ (Except.ok.injEq .. ▸ h)
      subst ht hk
      obtain ⟨w1, o1, c1⟩ := ih1 l k1 hTake
      obtain ⟨w2, o2, c2⟩ := ih2 r k2 hDrop
      refine ⟨?_, ?_, ?_⟩
      · simp [Node.wellValued, Op.apply, w1, w2]
      · simp [Node.leavesOk, o1, o2]
      · simp [Node.dieCount]
        omega
  | case7 fields stream k hr hp hm =>
      intro t kx h
      rw [parseTree_boundary hr (Or.inr hm) (Or.inl rfl)] at h
      cases h
  | case8 fields stream k hr hp hm h0 =>
      intro t kx h
      rw [parseTree_boundary hr (Or.inr hm) (Or.inr rfl)] at h
      cases h
  | case9 fields stream k root hr hp hm h0 hl e hTake ih1 =>
      intro t kx h
      rw [parseTree_op (o := .sub) hr (Or.inr ⟨hm, rfl⟩) h0 hl] at h
      simp only [hTake] at h
      cases h
  | case10 fields stream k root hr hp hm h0 hl l k1 hTake e hDrop ih1 ih2 =>
      intro t kx h
      rw [parseTree_op (o := .sub) hr (Or.inr ⟨hm, rfl⟩) h0 hl] at h
      simp only [hTake, hDrop] at h
      cases h
  | case11 fields stream k root hr hp hm h0 hl l k1 hTake r k2 hDrop ih1 ih2 =>
      intro t kx h
      rw [parseTree_op (o := .sub) hr (Or.inr ⟨hm, rfl⟩) h0 hl] at h
      simp only [hTake, hDrop] at h
      obtain ⟨ht, hk⟩ := Prod.mk.injEq .. ▸ (Except.ok.injEq .. ▸ h)
      subst ht hk
      obtain ⟨w1, o1, c1⟩ := ih1 l k1 hTake
      obtain ⟨w2, o2, c2⟩ := ih2 r k2 hDrop
      refine ⟨?_, ?_, ?_⟩
      · simp [Node.wellValued, Op.apply, w1, w2]
      · simp [Node.leavesOk, o1, o2]
      · simp [Node.dieCount]
        omega
  | case12 fields stream k root hr hp hm hmd e hs =>
      intro t kx h
      rw [parseTree_multi_err hr hp hm hmd hs] at h
      cases h
  | case13 fields stream k root hr hp hm hmd single hs ih =>
      intro t kx h
      rw [parseTree_multi hr hp hm hmd hs] at h
      exact ih t kx h
  | case14 fields stream k root hr hp hm hmd =>
      intro t kx h
      have hmdf : is_multi_die (fields.getD root []) = false := by
        revert hmd
        cases is_multi_die (fields.getD root []) <;> simp
      rw [parseTree_leaf hr hp hm hmdf] at h
      obtain ⟨w, o, c⟩ := mkValueNode_ok h
      refine ⟨w, ?_, c⟩
      rw [o, hmdf]
      rfl

theorem toNat_ofNat_digit (d : Nat) (hd : d < 10) :
    (Char.ofNat (d + 48)).toNat = d + 48 := by
  interval_cases d <;> decide

theorem isDigit_ofNat_digit (d : Nat) (hd : d < 10) :
    (Char.ofNat (d + 48)).isDigit = true := by
  interval_cases d <;> decide

theorem digit_props (c : Char) (h : c.isDigit = true) :
    c ≠ 'd' ∧ c ≠ '+' ∧ c ≠ '-' ∧ c.isWhitespace = false := by
  have hb : 48 ≤ c.toNat ∧ c.toNat ≤ 57 := by
    unfold Char.isDigit at h
    simp [Char.le_def] at h
    exact ⟨h.1, h.2⟩
  refine ⟨?_, ?_, ?_, ?_⟩
  · intro he; subst he; simp at hb
  · intro he; subst he; simp at hb
  · intro he; subst he; simp at hb
  · unfold Char.isWhitespace
    have h1 : c ≠ ' ' := by intro he; subst he; simp at hb
    have h2 : c ≠ '\t' := by intro he; subst he; simp at hb
    have h3 : c ≠ '\r' := by intro he; subst he; simp at hb
    have h4 : c ≠ '\n' := by intro he; subst he; simp at hb
    simp [h1, h2, h3, h4]

theorem natChars_ne_nil (n : Nat) : natChars n ≠ [] := by
  rw [natChars]
  split <;> simp

theorem natChars_all_digit (n : Nat) : ∀ c ∈ natChars n, c.isDigit = true := by
  induction n using Nat.strong_induction_on with
  | _ n ih =>
      rw [natChars]
      split
      · next h =>
          intro c hc
          simp at hc
          subst hc
          exact isDigit_ofNat_digit n h
      · next h =>
          intro c hc
          rw [List.mem_append] at hc
          rcases hc with hc | hc
          · exact ih (n / 10) (Nat.div_lt_self (by omega) (by omega)) c hc
          · simp at hc
            subst hc
            exact isDigit_ofNat_digit (n % 10) (Nat.mod_lt _ (by omega))

theorem digitsVal_append_digit (xs : List Char) (c : Char) :
    digitsVal (xs ++ [c]) = digitsVal xs * 10 + (c.toNat - 48) := by
  unfold digitsVal
  rw [List.foldl_append]
  rfl

theorem digitsVal_natChars (n : Nat) : digitsVal (natChars n) = n := by
  induction n using Nat.strong_induction_on with
  | _ n ih =>
      rw [natChars]
      split
      · next h =>
          unfold digitsVal
          simp only [List.foldl_cons, List.foldl_nil]
          rw [toNat_ofNat_digit n h]
          omega
      · next h =>
          rw [digitsVal_append_digit,
            ih (n / 10) (Nat.div_lt_self (by omega) (by omega)),
            toNat_ofNat_digit (n % 10) (Nat.mod_lt _ (by omega))]
          omega

theorem takeWhile_append_all {p : Char → Bool} {xs : List Char} (ys : List Char)
    (h : ∀ c ∈ xs, p c = true) :
    (xs ++ ys).takeWhile p = xs ++ ys.takeWhile p := by
  induction xs with
  | nil => simp
  | cons a l ih =>
      simp only [List.cons_append, List.takeWhile_cons]
      rw [h a (by simp)]
      simp only [if_true]
      rw [ih (fun c hc => h c (by simp [hc]))]

theorem dropWhile_append_all {p : Char → Bool} {xs : List Char} (ys : List Char)
    (h : ∀ c ∈ xs, p c = true) :
    (xs ++ ys).dropWhile p = ys.dropWhile p := by
  induction xs with
  | nil => simp
  | cons a l ih =>
      simp only [List.cons_append, List.dropWhile_cons]
      rw [h a (by simp)]
      simp only [if_true]
      rw [ih (fun c hc => h c (by simp [hc]))]

theorem takeWhile_all {p : Char → Bool} {xs : List Char}
    (h : ∀ c ∈ xs, p c = true) : xs.takeWhile p = xs := by
  have h2 := takeWhile_append_all (p := p) [] h
  simpa using h2

theorem get_multiplier_digits_d {ds : List Char} (hne : ds ≠ [])
    (hall : ∀ c ∈ ds, c.isDigit = true) (rest : List Char) :
    get_multiplier (ds ++ 'd' :: rest) = digitsVal ds := by
  unfold get_multiplier
  rw [dropWhile_append_all _ hall, takeWhile_append_all _ hall]
  have hd : Char.isDigit 'd' = false := by decide
  rw [List.dropWhile_cons, List.takeWhile_cons, hd]
  simp [hne]

theorem get_die_type_cons_ne {c : Char} {l : List Char} (h : ¬c = 'd') :
    get_die_type (c :: l) = get_die_type l := by
  conv_lhs => rw [get_die_type]
  simp [h]

theorem get_die_type_skip {xs : List Char} (l : List Char)
    (h : ∀ c ∈ xs, ¬c = 'd') :
    get_die_type (xs ++ l) = get_die_type l := by
  induction xs with
  | nil => simp
  | cons a t ih =>
      rw [List.cons_append, get_die_type_cons_ne (h a (by simp))]
      exact ih (fun c hc => h c (by simp [hc]))

theorem get_die_type_d {ds : List Char} (hne : ds ≠ [])
    (hall : ∀ c ∈ ds, c.isDigit = true) :
    get_die_type ('d' :: ds) = .ok (digitsVal ds) := by
  unfold get_die_type
  rw [takeWhile_all hall]
  simp [hne]

/-- The value the embedded `random.randint(1, F)` call at cursor `j` takes. -/
def rollVal (F : Nat) (stream : Nat → Nat) (j : Nat) : Int :=
  ((1 + stream j % F : Nat) : Int)

theorem randint_ok {F : Nat} (seed : Nat) (h : 1 ≤ F) :
    randint 1 F seed = .ok ((1 + seed % F : Nat) : Int) := by
  unfold randint
  rw [if_pos h, show F - 1 + 1 = F from by omega]

theorem rollVal_bounds (F : Nat) (stream : Nat → Nat) (j : Nat) (hF : 1 ≤ F) :
    1 ≤ rollVal F stream j ∧ rollVal F stream j ≤ (F : Int) := by
  unfold rollVal
  have h1 : stream j % F < F := Nat.mod_lt _ (by omega)
  constructor
  · exact_mod_cast Nat.le_add_right 1 (stream j % F)
  · exact_mod_cast by omega

/-- The rendering of a single die leaf with face count `F` and value `v`
(`ValueNode.__str__`). -/
def dieStr (F : Nat) (v : Int) : List Char :=
  if v = (F : Int) then
    '!' :: '*' :: intChars v ++ '*' :: '!' :: '(' :: 'd' :: natChars F ++ [')']
  else intChars v ++ '(' :: 'd' :: natChars F ++ [')']

theorem str_die_leaf (f : FieldStr) (F : Nat) (v : Int) :
    (Node.ValueNode f true (some F) v).str = dieStr F v := rfl

theorem contains_d_single (rest : List Char) :
    ('1' :: 'd' :: rest).contains 'd' = true := by
  simp [List.contains_cons]

theorem mkValueNode_single (F : Nat) (hF : 1 ≤ F) (stream : Nat → Nat) (k : Nat) :
    mkValueNode ('1' :: 'd' :: natChars F) stream k =
      .ok (.ValueNode ('1' :: 'd' :: natChars F) true (some F) (rollVal F stream k),
        k + 1) := by
  unfold mkValueNode
  rw [if_pos (contains_d_single (natChars F))]
  have hg : get_die_type ('1' :: 'd' :: natChars F) = .ok F := by
    rw [get_die_type_cons_ne (by decide),
      get_die_type_d (natChars_ne_nil F) (natChars_all_digit F), digitsVal_natChars]
  simp only [hg, randint_ok (stream k) hF]
  rfl

theorem single_ne_plus (rest : List Char) : ¬('1' :: 'd' :: rest) = plusF := by
  simp [plusF]

theorem single_ne_minus (rest : List Char) : ¬('1' :: 'd' :: rest) = minusF := by
  simp [minusF]

theorem find_root_singleton {f : FieldStr} (hp : ¬f = plusF) (hm : ¬f = minusF) :
    find_root_node [f] = .ok 0 := by
  have h1 : ¬plusF ∈ [f] := by
    simp only [List.mem_singleton]
    exact fun hh => hp hh.symm
  have h2 : ¬minusF ∈ [f] := by
    simp only [List.mem_singleton]
    exact fun hh => hm hh.symm
  unfold find_root_node
  rw [if_neg h1, if_neg h2]
  simp

theorem parseTree_single_die (F : Nat) (hF : 1 ≤ F) (stream : Nat → Nat) (k : Nat) :
    parseTree ['1' :: 'd' :: natChars F] stream k =
      .ok (.ValueNode ('1' :: 'd' :: natChars F) true (some F) (rollVal F stream k),
        k + 1) := by
  have hr : find_root_node ['1' :: 'd' :: natChars F] = .ok 0 :=
    find_root_singleton (single_ne_plus _) (single_ne_minus _)
  have hmd : is_multi_die ([('1' :: 'd' :: natChars F)].getD 0 []) = false := by
    show is_multi_die ('1' :: 'd' :: natChars F) = false
    unfold is_multi_die
    rw [get_multiplier_single]
    decide
  rw [parseTree_leaf hr (single_ne_plus _) (single_ne_minus _) hmd]
  exact mkValueNode_single F hF stream k

/-- Values drawn by `m` consecutive die rolls on faces `F` starting at
cursor `k`. -/
def rollVals (F : Nat) (stream : Nat → Nat) (k m : Nat) : List Int :=
  (List.range m).map (fun i => rollVal F stream (k + i))

/-- Join rendered sub-terms with the separator `OpNode.__str__` places
around `+`. -/
def joinPlus : List (List Char) → List Char
  | [] => []
  | [x] => x
  | x :: y :: rest => x ++ ' ' :: '+' :: ' ' :: joinPlus (y :: rest)

theorem rollVals_succ (F : Nat) (stream : Nat → Nat) (k m : Nat) :
    rollVals F stream k (m + 1)
      = rollVal F stream k :: rollVals F stream (k + 1) m := by
  unfold rollVals
  have htail : (List.range m).map ((fun i => rollVal F stream (k + i)) ∘ Nat.succ)
      = (List.range m).map (fun i => rollVal F stream (k + 1 + i)) := by
    apply List.map_congr_left
    intro i hi
    show rollVal F stream (k + (i + 1)) = rollVal F stream (k + 1 + i)
    congr 1
    omega
  rw [List.range_succ_eq_map, List.map_cons, List.map_map, htail]
  rfl

theorem rollVals_length (F : Nat) (stream : Nat → Nat) (k m : Nat) :
    (rollVals F stream k m).length = m := by
  unfold rollVals
  simp

theorem multi_expression_succ (single : FieldStr) (m : Nat) (hm : 1 ≤ m) :
    multi_expression single (m + 1) = single :: plusF :: multi_expression single m := by
  obtain ⟨j, rfl⟩ : ∃ j, m = j + 1 := ⟨m - 1, by omega⟩
  unfold multi_expression
  rw [show j + 1 + 1 - 1 = j + 1 from by omega, show j + 1 - 1 = j from rfl]
  rw [List.replicate_succ, List.flatten_cons]
  rfl

/-- Building the expansion of `m` single dice of face count `F` succeeds,
advances the cursor by `m`, renders as the `+`-joined die sub-terms, and
totals their sum. -/
theorem parseTree_chain (F : Nat) (hF : 1 ≤ F) :
    ∀ (m : Nat), 1 ≤ m → ∀ (stream : Nat → Nat) (k : Nat),
      ∃ t : Node,
        parseTree (multi_expression ('1' :: 'd' :: natChars F) m) stream k
          = .ok (t, k + m) ∧
        t.str = joinPlus ((rollVals F stream k m).map (dieStr F)) ∧
        t.val = (rollVals F stream k m).sum := by
  intro m
  induction m with
  | zero => intro hm; omega
  | succ m ih =>
      intro _ stream k
      by_cases hm0 : m = 0
      · subst hm0
        refine ⟨.ValueNode ('1' :: 'd' :: natChars F) true (some F)
          (rollVal F stream k), ?_, ?_, ?_⟩
        · have h1 : multi_expression ('1' :: 'd' :: natChars F) 1
              = [('1' :: 'd' :: natChars F)] := by
            unfold multi_expression
            simp
          rw [h1, parseTree_single_die F hF stream k]
        · rw [str_die_leaf]
          have h2 : rollVals F stream k 1 = [rollVal F stream k] := rfl
          rw [h2]
          rfl
        · have h2 : rollVals F stream k 1 = [rollVal F stream k] := rfl
          rw [h2]
          show rollVal F stream k = [rollVal F stream k].sum
          simp
      · have hm1 : 1 ≤ m := by omega
        obtain ⟨t', ht', hstr', hval'⟩ := ih hm1 stream (k + 1)
        have hL := multi_expression_succ ('1' :: 'd' :: natChars F) m hm1
        have hmem : plusF ∈ multi_expression ('1' :: 'd' :: natChars F) (m + 1) := by
          rw [hL]
          simp
        have hfi : firstIdx plusF (multi_expression ('1' :: 'd' :: natChars F) (m + 1)) = 1 := by
          rw [hL]
          conv_lhs => rw [firstIdx]
          rw [if_neg (single_ne_plus _)]
          conv_lhs => rw [firstIdx]
          rw [if_pos rfl]
        have hr : find_root_node (multi_expression ('1' :: 'd' :: natChars F) (m + 1))
            = .ok 1 := by
          unfold find_root_node
          rw [if_pos hmem, hfi]
        have hget : (multi_expression ('1' :: 'd' :: natChars F) (m + 1)).getD 1 [] = plusF := by
          rw [hL]
          rfl
        have hlen : (multi_expression ('1' :: 'd' :: natChars F) (m + 1)).length
            = 2 * m + 1 := by
          rw [multi_expression_length]
          omega
        have h0 : (1 : Nat) ≠ 0 := by omega
        have hl : (1 : Nat) ≠ (multi_expression ('1' :: 'd' :: natChars F) (m + 1)).length := by
          omega
        have htake : (multi_expression ('1' :: 'd' :: natChars F) (m + 1)).take 1
            = [('1' :: 'd' :: natChars F)] := by
          rw [hL]
          rfl
        have hdrop : (multi_expression ('1' :: 'd' :: natChars F) (m + 1)).drop 2
            = multi_expression ('1' :: 'd' :: natChars F) m := by
          rw [hL]
          rfl
        refine ⟨.OpNode (.ValueNode ('1' :: 'd' :: natChars F) true (some F)
            (rollVal F stream k)) t' .add (rollVal F stream k + t'.val), ?_, ?_, ?_⟩
        · rw [parseTree_op (o := .add) hr (Or.inl ⟨hget, rfl⟩) h0 hl]
          have harith : k + 1 + m = k + (m + 1) := by omega
          rw [htake]
          simp only [hdrop, parseTree_single_die F hF stream k, ht', harith]
          rfl
        · show (Node.ValueNode ('1' :: 'd' :: natChars F) true (some F)
              (rollVal F stream k)).str ++ ' ' :: '+' :: ' ' :: t'.str
            = joinPlus ((rollVals F stream k (m + 1)).map (dieStr F))
          rw [str_die_leaf, hstr', rollVals_succ]
          have hmne : rollVals F stream (k + 1) m ≠ [] := by
            intro hx
            have := rollVals_length F stream (k + 1) m
            rw [hx] at this
            simp at this
            omega
          cases hx : rollVals F stream (k + 1) m with
          | nil => exact absurd hx hmne
          | cons a as => rfl
        · show rollVal F stream k + t'.val = (rollVals F stream k (m + 1)).sum
          rw [rollVals_succ, List.sum_cons, hval']

theorem parse_fields_aux_no_op {s : List Char} (h : ∀ c ∈ s, c ≠ '+' ∧ c ≠ '-') :
    ∀ (fields : List FieldStr) (curr : List Char),
      parse_fields_aux fields curr s
        = .ok (if curr ++ s ≠ [] then fields ++ [trim (curr ++ s)] else fields) := by
  induction s with
  | nil =>
      intro fields curr
      simp [parse_fields_aux]
  | cons c rest ih =>
      intro fields curr
      obtain ⟨hcp, hcm⟩ := h c (by simp)
      rw [parse_fields_aux]
      rw [if_neg hcp, if_neg hcm]
      rw [ih (fun x hx => h x (by simp [hx])) fields (curr ++ [c])]
      rw [List.append_cons curr c rest]

theorem parse_fields_no_op {s : List Char} (hne : s ≠ [])
    (h : ∀ c ∈ s, c ≠ '+' ∧ c ≠ '-') :
    parse_fields s = .ok [trim s] := by
  unfold parse_fields
  rw [parse_fields_aux_no_op h [] []]
  simp [hne]

theorem dropWhile_no_ws {l : List Char} (h : ∀ c ∈ l, c.isWhitespace = false) :
    l.dropWhile Char.isWhitespace = l := by
  cases l with
  | nil => rfl
  | cons a t =>
      rw [List.dropWhile_cons, h a (by simp)]
      simp

theorem trim_no_ws {s : List Char} (h : ∀ c ∈ s, c.isWhitespace = false) :
    trim s = s := by
  unfold trim
  rw [dropWhile_no_ws h,
    dropWhile_no_ws (fun c hc => h c (List.mem_reverse.mp hc)),
    List.reverse_reverse]

theorem sum_bounds {F : Int} : ∀ {vs : List Int}, (∀ v ∈ vs, 1 ≤ v ∧ v ≤ F) →
    (vs.length : Int) ≤ vs.sum ∧ vs.sum ≤ (vs.length : Int) * F := by
  intro vs
  induction vs with
  | nil => simp
  | cons a t ih =>
      intro h
      obtain ⟨h1, h2⟩ := h a (List.mem_cons_self a t)
      obtain ⟨ih1, ih2⟩ := ih (fun v hv => h v (List.mem_cons_of_mem a hv))
      rw [List.sum_cons, List.length_cons]
      push_cast
      constructor
      · linarith
      · have hstep : a + t.sum ≤ F + (t.length : Int) * F := add_le_add h2 ih2
        calc (a + t.sum : Int) ≤ F + (t.length : Int) * F := hstep
          _ = ((t.length : Int) + 1) * F := by ring

theorem rollVals_mem_bounds {F : Nat} (hF : 1 ≤ F) (stream : Nat → Nat) (k m : Nat) :
    ∀ v ∈ rollVals F stream k m, 1 ≤ v ∧ v ≤ (F : Int) := by
  intro v hv
  unfold rollVals at hv
  simp only [List.mem_map, List.mem_range] at hv
  obtain ⟨i, _, rfl⟩ := hv
  exact rollVal_bounds F stream (k + i) hF

/-- A fixed random stream for the concrete instances below: every draw is
the minimum one. -/
def zStream : Nat → Nat := fun _ => 0

theorem single_chars_no_op (F : Nat) :
    ∀ c ∈ ('1' :: 'd' :: natChars F), c ≠ '+' ∧ c ≠ '-' := by
  intro c hc
  rcases List.mem_cons.mp hc with rfl | hc
  · exact ⟨by decide, by decide⟩
  rcases List.mem_cons.mp hc with rfl | hc
  · exact ⟨by decide, by decide⟩
  · obtain ⟨_, h2, h3, _⟩ := digit_props c (natChars_all_digit F c hc)
    exact ⟨h2, h3⟩

theorem single_chars_no_ws (F : Nat) :
    ∀ c ∈ ('1' :: 'd' :: natChars F), c.isWhitespace = false := by
  intro c hc
  rcases List.mem_cons.mp hc with rfl | hc
  · decide
  rcases List.mem_cons.mp hc with rfl | hc
  · decide
  · exact (digit_props c (natChars_all_digit F c hc)).2.2.2

theorem mdf_chars_no_op (M F : Nat) :
    ∀ c ∈ (natChars M ++ 'd' :: natChars F), c ≠ '+' ∧ c ≠ '-' := by
  intro c hc
  rcases List.mem_append.mp hc with hc | hc
  · obtain ⟨_, h2, h3, _⟩ := digit_props c (natChars_all_digit M c hc)
    exact ⟨h2, h3⟩
  rcases List.mem_cons.mp hc with rfl | hc
  · exact ⟨by decide, by decide⟩
  · obtain ⟨_, h2, h3, _⟩ := digit_props c (natChars_all_digit F c hc)
    exact ⟨h2, h3⟩

theorem mdf_chars_no_ws (M F : Nat) :
    ∀ c ∈ (natChars M ++ 'd' :: natChars F), c.isWhitespace = false := by
  intro c hc
  rcases List.mem_append.mp hc with hc | hc
  · exact (digit_props c (natChars_all_digit M c hc)).2.2.2
  rcases List.mem_cons.mp hc with rfl | hc
  · decide
  · exact (digit_props c (natChars_all_digit F c hc)).2.2.2

theorem mdf_ne_plus (M F : Nat) : ¬(natChars M ++ 'd' :: natChars F) = plusF := by
  intro h
  have hd : 'd' ∈ (natChars M ++ 'd' :: natChars F) := by simp
  rw [h] at hd
  simp [plusF] at hd

theorem mdf_ne_minus (M F : Nat) : ¬(natChars M ++ 'd' :: natChars F) = minusF := by
  intro h
  have hd : 'd' ∈ (natChars M ++ 'd' :: natChars F) := by simp
  rw [h] at hd
  simp [minusF] at hd

theorem get_multiplier_mdf (M F : Nat) :
    get_multiplier (natChars M ++ 'd' :: natChars F) = M := by
  rw [get_multiplier_digits_d (natChars_ne_nil M) (natChars_all_digit M),
    digitsVal_natChars]

theorem get_die_type_mdf (M F : Nat) :
    get_die_type (natChars M ++ 'd' :: natChars F) = .ok F := by
  rw [get_die_type_skip _ (fun c hc => (digit_props c (natChars_all_digit M c hc)).1),
    get_die_type_d (natChars_ne_nil F) (natChars_all_digit F), digitsVal_natChars]

/-- C7: for every single-die input `1d{F}` with `F ≥ 1` the total is a value
of `[1, F]`; the rendered string is `{total}(d{F})` when the total is below
`F` and the distinguished maximum form `!*{total}*!(d{F})` when it equals
`F`; a roll of 1 with `F > 1` renders in the plain form (no distinguished
minimum form exists). -/
theorem C7_single_die (F : Nat) (stream : Nat → Nat) (hF : 1 ≤ F) :
    evaluate ('1' :: 'd' :: natChars F) stream
      = .ok (rollVal F stream 0, dieStr F (rollVal F stream 0))
    ∧ 1 ≤ rollVal F stream 0 ∧ rollVal F stream 0 ≤ (F : Int)
    ∧ (rollVal F stream 0 < (F : Int) →
        dieStr F (rollVal F stream 0)
          = intChars (rollVal F stream 0) ++ '(' :: 'd' :: natChars F ++ [')'])
    ∧ (rollVal F stream 0 = (F : Int) →
        dieStr F (rollVal F stream 0)
          = '!' :: '*' :: intChars (rollVal F stream 0)
              ++ '*' :: '!' :: '(' :: 'd' :: natChars F ++ [')'])
    ∧ (1 < F → rollVal F stream 0 = 1 →
        dieStr F (rollVal F stream 0) = '1' :: '(' :: 'd' :: natChars F ++ [')']) := by
  have hpf : parse_fields ('1' :: 'd' :: natChars F) = .ok [('1' :: 'd' :: natChars F)] := by
    rw [parse_fields_no_op (by simp) (single_chars_no_op F),
      trim_no_ws (single_chars_no_ws F)]
  obtain ⟨hlo, hhi⟩ := rollVal_bounds F stream 0 hF
  refine ⟨?_, hlo, hhi, ?_, ?_, ?_⟩
  · unfold evaluate
    simp only [hpf, parseTree_single_die F hF stream 0]
    rfl
  · intro hlt
    unfold dieStr
    rw [if_neg (by omega)]
  · intro heq
    unfold dieStr
    rw [if_pos heq]
  · intro hF1 hone
    unfold dieStr
    rw [if_neg (by omega), hone]
    have h1 : intChars 1 = ['1'] := by
      unfold intChars
      rw [if_neg (by omega)]
      rw [show ((1 : Int).toNat) = 1 from rfl]
      rw [natChars]
      simp
    rw [h1]
    rfl

/-- C7 witness: the concrete single-die input `1d6` under the all-zero
stream rolls 1 and renders in the plain (non-maximum) form. -/
theorem C7_witness :
    evaluate ('1' :: 'd' :: natChars 6) zStream
      = .ok (rollVal 6 zStream 0, dieStr 6 (rollVal 6 zStream 0))
    ∧ dieStr 6 (rollVal 6 zStream 0) = '1' :: '(' :: 'd' :: natChars 6 ++ [')'] := by
  have h := C7_single_die 6 zStream (by decide)
  exact ⟨h.1, h.2.2.2.2.2 (by decide) (by decide)⟩

/-- C5: for every multi-die input `{M}d{F}` with `M ≥ 2` and `F ≥ 1` the
rendered string is exactly the `+`-join of `M` die sub-terms, and the total
lies between `M*1` and `M*F`. -/
theorem C5_multi_die (M F : Nat) (stream : Nat → Nat) (hM : 2 ≤ M) (hF : 1 ≤ F) :
    evaluate (natChars M ++ 'd' :: natChars F) stream
      = .ok ((rollVals F stream 0 M).sum,
          joinPlus ((rollVals F stream 0 M).map (dieStr F)))
    ∧ ((rollVals F stream 0 M).map (dieStr F)).length = M
    ∧ (M : Int) * 1 ≤ (rollVals F stream 0 M).sum
    ∧ (rollVals F stream 0 M).sum ≤ (M : Int) * (F : Int) := by
  have hpf : parse_fields (natChars M ++ 'd' :: natChars F)
      = .ok [(natChars M ++ 'd' :: natChars F)] := by
    rw [parse_fields_no_op (by simp [natChars_ne_nil M]) (mdf_chars_no_op M F),
      trim_no_ws (mdf_chars_no_ws M F)]
  have hr : find_root_node [(natChars M ++ 'd' :: natChars F)] = .ok 0 :=
    find_root_singleton (mdf_ne_plus M F) (mdf_ne_minus M F)
  have hgd : ([(natChars M ++ 'd' :: natChars F)].getD 0 [])
      = (natChars M ++ 'd' :: natChars F) := rfl
  have hmd : is_multi_die ([(natChars M ++ 'd' :: natChars F)].getD 0 []) = true := by
    rw [hgd]
    unfold is_multi_die
    rw [get_multiplier_mdf M F]
    simp
    omega
  have hs : make_single_roll ([(natChars M ++ 'd' :: natChars F)].getD 0 [])
      = .ok ('1' :: 'd' :: natChars F) := by
    rw [hgd]
    unfold make_single_roll
    rw [get_die_type_mdf M F]
  have hT := @parseTree_multi [(natChars M ++ 'd' :: natChars F)] stream 0 0
    ('1' :: 'd' :: natChars F) hr
    (by rw [hgd]; exact mdf_ne_plus M F) (by rw [hgd]; exact mdf_ne_minus M F) hmd hs
  rw [hgd, get_multiplier_mdf M F] at hT
  obtain ⟨t, ht, hstr, hval⟩ := parseTree_chain F hF M (by omega) stream 0
  have hbounds := sum_bounds (F := (F : Int)) (rollVals_mem_bounds hF stream 0 M)
  rw [rollVals_length] at hbounds
  refine ⟨?_, ?_, ?_, ?_⟩
  · unfold evaluate
    simp only [hpf, hT, ht, hstr, hval]
  · rw [List.length_map, rollVals_length]
  · have := hbounds.1
    omega
  · exact hbounds.2

/-- C5 witness: the concrete multi-die input `2d6` under the all-zero stream
renders as two plus-joined die sub-terms and totals 2. -/
theorem C5_witness :
    evaluate (natChars 2 ++ 'd' :: natChars 6) zStream
      = .ok ((rollVals 6 zStream 0 2).sum,
          joinPlus ((rollVals 6 zStream 0 2).map (dieStr 6)))
    ∧ ((rollVals 6 zStream 0 2).map (dieStr 6)).length = 2
    ∧ (2 : Int) * 1 ≤ (rollVals 6 zStream 0 2).sum
    ∧ (rollVals 6 zStream 0 2).sum ≤ (2 : Int) * (6 : Int) :=
  C5_multi_die 2 6 zStream (by decide) (by decide)

/-- C1 counterexample: on the fields of `1-2+3` the last `-` sits at index 1
(no later field is `-`), yet the root locator answers index 3 (the `+`), so
the claimed minus-first precedence is false on the code. -/
theorem C1_counterexample :
    minusF ∈ [['1'], minusF, ['2'], plusF, ['3']]
    ∧ [['1'], minusF, ['2'], plusF, ['3']].getD 1 [] = minusF
    ∧ (∀ j ∈ [2, 3, 4], [['1'], minusF, ['2'], plusF, ['3']].getD j [] ≠ minusF)
    ∧ find_root_node [['1'], minusF, ['2'], plusF, ['3']] = .ok 3
    ∧ (3 : Nat) ≠ 1 := by
  decide

/-- C1 (amended): the root locator checks `+` first: when any `+` field
exists it answers the index of the first `+`; only otherwise, when any `-`
exists, it answers the index of the last `-`; otherwise it demands exactly
one field and answers 0, failing on any other length. -/
theorem C1_find_root_characterization (fields : List FieldStr) :
    (plusF ∈ fields →
      find_root_node fields = .ok (firstIdx plusF fields)
      ∧ fields.getD (firstIdx plusF fields) [] = plusF
      ∧ ∀ j, j < firstIdx plusF fields → fields.getD j [] ≠ plusF)
    ∧ (plusF ∉ fields → minusF ∈ fields →
      find_root_node fields
          = .ok (fields.length - 1 - firstIdx minusF fields.reverse)
      ∧ fields.getD (fields.length - 1 - firstIdx minusF fields.reverse) [] = minusF
      ∧ ∀ j, fields.length - 1 - firstIdx minusF fields.reverse < j →
          j < fields.length → fields.getD j [] ≠ minusF)
    ∧ (plusF ∉ fields → minusF ∉ fields → fields.length = 1 →
        find_root_node fields = .ok 0)
    ∧ (plusF ∉ fields → minusF ∉ fields → fields.length ≠ 1 →
        find_root_node fields = .error .ambiguousOrMissingOperand) := by
  refine ⟨?_, ?_, ?_, ?_⟩
  · intro hp
    refine ⟨?_, getD_firstIdx hp, fun j hj => getD_lt_firstIdx hj⟩
    unfold find_root_node
    rw [if_pos hp]
  · intro hp hm
    have hmr : minusF ∈ fields.reverse := List.mem_reverse.mpr hm
    have hir : firstIdx minusF fields.reverse < fields.length := by
      have := firstIdx_lt_length hmr
      simpa using this
    refine ⟨?_, ?_, ?_⟩
    · unfold find_root_node
      rw [if_neg hp, if_pos hm]
    · have h3 := getD_firstIdx hmr
      rw [List.getD_eq_getElem?_getD, List.getElem?_reverse (by simpa using hir)] at h3
      rw [List.getD_eq_getElem?_getD]
      simpa using h3
    · intro j h1 h2
      have hj : fields.length - 1 - j < firstIdx minusF fields.reverse := by omega
      have h4 := getD_lt_firstIdx (l := fields.reverse) (x := minusF) hj
      rw [List.getD_eq_getElem?_getD, List.getElem?_reverse (by omega)] at h4
      rw [List.getD_eq_getElem?_getD]
      rw [show fields.length - 1 - (fields.length - 1 - j) = j from by omega] at h4
      exact h4
  · intro hp hm hl
    unfold find_root_node
    rw [if_neg hp, if_neg hm, if_pos hl]
  · intro hp hm hl
    unfold find_root_node
    rw [if_neg hp, if_neg hm, if_neg hl]

/-- C1 witness: on the fields of `1-2+3` the amended rule picks the first
`+` (index 3), and on the fields of `1-2-3` (no `+`) it picks the last `-`
(index 3). -/
theorem C1_witness :
    (find_root_node [['1'], minusF, ['2'], plusF, ['3']]
        = .ok (firstIdx plusF [['1'], minusF, ['2'], plusF, ['3']])
      ∧ [['1'], minusF, ['2'], plusF, ['3']].getD
          (firstIdx plusF [['1'], minusF, ['2'], plusF, ['3']]) [] = plusF)
    ∧ (find_root_node [['1'], minusF, ['2'], minusF, ['3']]
        = .ok ([['1'], minusF, ['2'], minusF, ['3']].length - 1
            - firstIdx minusF [['1'], minusF, ['2'], minusF, ['3']].reverse)
      ∧ [['1'], minusF, ['2'], minusF, ['3']].getD
          ([['1'], minusF, ['2'], minusF, ['3']].length - 1
            - firstIdx minusF [['1'], minusF, ['2'], minusF, ['3']].reverse) []
          = minusF) := by
  constructor
  · have h := (C1_find_root_characterization [['1'], minusF, ['2'], plusF, ['3']]).1
      (by decide)
    exact ⟨h.1, h.2.1⟩
  · have h := (C1_find_root_characterization [['1'], minusF, ['2'], minusF, ['3']]).2.1
      (by decide) (by decide)
    exact ⟨h.1, h.2.1⟩

theorem parseTree_lit (f : FieldStr) (v : Int) (stream : Nat → Nat) (k : Nat)
    (hp : ¬f = plusF) (hm : ¬f = minusF) (hmd : is_multi_die f = false)
    (hnd : f.contains 'd' = false) (hv : parse_int f = .ok v) :
    parseTree [f] stream k = .ok (.ValueNode f false none v, k) := by
  rw [parseTree_leaf (find_root_singleton hp hm) hp hm hmd]
  show mkValueNode f stream k = _
  unfold mkValueNode
  rw [if_neg (by rw [hnd]; exact Bool.false_ne_true)]
  simp only [hv]

theorem parseTree_lit_err (f : FieldStr) (e : Err) (stream : Nat → Nat) (k : Nat)
    (hp : ¬f = plusF) (hm : ¬f = minusF) (hmd : is_multi_die f = false)
    (hnd : f.contains 'd' = false) (hv : parse_int f = .error e) :
    parseTree [f] stream k = .error e := by
  rw [parseTree_leaf (find_root_singleton hp hm) hp hm hmd]
  show mkValueNode f stream k = _
  unfold mkValueNode
  rw [if_neg (by rw [hnd]; exact Bool.false_ne_true)]
  simp only [hv]

theorem parseTree_die_err (f : FieldStr) (e : Err) (stream : Nat → Nat) (k : Nat)
    (hp : ¬f = plusF) (hm : ¬f = minusF) (hmd : is_multi_die f = false)
    (hnd : f.contains 'd' = true) (hg : get_die_type f = .error e) :
    parseTree [f] stream k = .error e := by
  rw [parseTree_leaf (find_root_singleton hp hm) hp hm hmd]
  show mkValueNode f stream k = _
  unfold mkValueNode
  rw [if_pos hnd]
  simp only [hg]

/-- C2: the source's second boundary assertion compares the root index with
`len(fields)` — a value an index can never take — instead of
`len(fields) - 1`, so an operator at the last position (the fields of `3+`)
passes both boundary checks and the failure surfaces as the
missing-operand assertion of the recursive root location on the empty
right slice, not as the claimed operator-placement error; only an operator
at position 0 raises the placement error. -/
theorem C2_boundary (stream : Nat → Nat) (k : Nat) :
    parse_fields "3+".toList = .ok [['3'], plusF]
    ∧ find_root_node [['3'], plusF] = .ok 1
    ∧ 1 = [['3'], plusF].length - 1
    ∧ parseTree [['3'], plusF] stream k = .error .ambiguousOrMissingOperand
    ∧ Err.ambiguousOrMissingOperand ≠ Err.malformedOperatorPlacement
    ∧ find_root_node [plusF, ['3']] = .ok 0
    ∧ parseTree [plusF, ['3']] stream k = .error .malformedOperatorPlacement := by
  refine ⟨by decide, by decide, by decide, ?_, by decide, by decide, ?_⟩
  · rw [parseTree_op (o := .add) (show find_root_node [['3'], plusF] = .ok 1 by decide)
      (Or.inl ⟨rfl, rfl⟩) (by decide) (by decide)]
    have hL := parseTree_lit ['3'] 3 stream k (by decide) (by decide) (by decide)
      (by decide) (by decide)
    have hR := @parseTree_err ([] : List FieldStr) stream k .ambiguousOrMissingOperand
      (show find_root_node [] = .error .ambiguousOrMissingOperand by decide)
    simp only [show [['3'], plusF].take 1 = [['3']] from rfl,
      show [['3'], plusF].drop 2 = [] from rfl, hL, hR]
  · exact parseTree_boundary (show find_root_node [plusF, ['3']] = .ok 0 by decide)
      (Or.inl rfl) (Or.inl rfl)

/-- C6: `+5` fails in the splitter with the operator-placement error and `d`
fails with the malformed-die error as claimed, but `3+` — though it never
silently evaluates — fails with the missing-operand assertion from the
recursive root location on the empty right slice (the boundary assertion
that should catch it is vacuous), not with the claimed operator-placement
error. -/
theorem C6_malformed (stream : Nat → Nat) :
    evaluate "+5".toList stream = .error .malformedOperatorPlacement
    ∧ evaluate "d".toList stream = .error .malformedDieTerm
    ∧ evaluate "3+".toList stream = .error .ambiguousOrMissingOperand
    ∧ Err.ambiguousOrMissingOperand ≠ Err.malformedOperatorPlacement := by
  refine ⟨?_, ?_, ?_, by decide⟩
  · unfold evaluate
    simp only [show parse_fields "+5".toList = .error .malformedOperatorPlacement
      from by decide]
  · unfold evaluate
    have hT := parseTree_die_err ['d'] .malformedDieTerm stream 0 (by decide) (by decide)
      (by decide) (by decide) (by decide)
    simp only [show parse_fields "d".toList = .ok [['d']] from by decide, hT]
  · unfold evaluate
    have hT := (C2_boundary stream 0).2.2.2.1
    simp only [show parse_fields "3+".toList = .ok [['3'], plusF] from by decide, hT]

/-- C3: `5--3` is not a parse error: the second `-` is absorbed by the
splitter (the fields equal those of `5-3`, with a single `-` operator
field), the root is that `-` by the locator's minus rule, and the total is
deterministically `2 = 5 + (-3)` for every random stream. -/
theorem C3_consecutive_minus (stream : Nat → Nat) (k : Nat) :
    parse_fields "5--3".toList = .ok [['5'], minusF, ['3']]
    ∧ parse_fields "5--3".toList = parse_fields "5-3".toList
    ∧ parseTree [['5'], minusF, ['3']] stream k
        = .ok (.OpNode (.ValueNode ['5'] false none 5) (.ValueNode ['3'] false none 3)
            .sub 2, k)
    ∧ evaluate "5--3".toList stream = .ok (2, "5 - 3".toList)
    ∧ (2 : Int) = 5 + (-3) := by
  have hT : ∀ j : Nat, parseTree [['5'], minusF, ['3']] stream j
      = .ok (.OpNode (.ValueNode ['5'] false none 5) (.ValueNode ['3'] false none 3)
          .sub 2, j) := by
    intro j
    rw [parseTree_op (o := .sub)
      (show find_root_node [['5'], minusF, ['3']] = .ok 1 by decide)
      (Or.inr ⟨rfl, rfl⟩) (by decide) (by decide)]
    have hL := parseTree_lit ['5'] 5 stream j (by decide) (by decide) (by decide)
      (by decide) (by decide)
    have hR := parseTree_lit ['3'] 3 stream j (by decide) (by decide) (by decide)
      (by decide) (by decide)
    simp only [show [['5'], minusF, ['3']].take 1 = [['5']] from rfl,
      show [['5'], minusF, ['3']].drop 2 = [['3']] from rfl, hL, hR]
    rfl
  refine ⟨by decide, by decide, hT k, ?_, by decide⟩
  unfold evaluate
  simp only [show parse_fields "5--3".toList = .ok [['5'], minusF, ['3']] from by decide,
    hT 0]
  simp [Node.val, Node.str, intChars, natChars, Op.char]

/-- C10: the splitter accepts `3++4`, producing an empty-string operand
field between the two `+` fields; the build then fails with the
invalid-literal error exactly when that empty operand is parsed as an
integer, so the input never produces a numeric result. -/
theorem C10_double_plus (stream : Nat → Nat) (k : Nat) :
    parse_fields "3++4".toList = .ok [['3'], plusF, [], plusF, ['4']]
    ∧ ([] : FieldStr) ∈ [['3'], plusF, [], plusF, ['4']]
    ∧ parse_int ([] : FieldStr) = .error .invalidLiteral
    ∧ parseTree [['3'], plusF, [], plusF, ['4']] stream k = .error .invalidLiteral
    ∧ evaluate "3++4".toList stream = .error .invalidLiteral := by
  have hInner : ∀ j : Nat, parseTree [([] : FieldStr), plusF, ['4']] stream j
      = .error .invalidLiteral := by
    intro j
    rw [parseTree_op (o := .add)
      (show find_root_node [([] : FieldStr), plusF, ['4']] = .ok 1 by decide)
      (Or.inl ⟨rfl, rfl⟩) (by decide) (by decide)]
    have hL := parseTree_lit_err [] .invalidLiteral stream j (by decide) (by decide)
      (by decide) (by decide) (by decide)
    simp only [show [([] : FieldStr), plusF, ['4']].take 1 = [([] : FieldStr)] from rfl,
      hL]
  have hT : ∀ j : Nat, parseTree [['3'], plusF, [], plusF, ['4']] stream j
      = .error .invalidLiteral := by
    intro j
    rw [parseTree_op (o := .add)
      (show find_root_node [['3'], plusF, [], plusF, ['4']] = .ok 1 by decide)
      (Or.inl ⟨rfl, rfl⟩) (by decide) (by decide)]
    have hL := parseTree_lit ['3'] 3 stream j (by decide) (by decide) (by decide)
      (by decide) (by decide)
    simp only [show [['3'], plusF, [], plusF, ['4']].take 1 = [['3']] from rfl,
      show [['3'], plusF, [], plusF, ['4']].drop 2 = [([] : FieldStr), plusF, ['4']]
        from rfl, hL, hInner j]
  refine ⟨by decide, by decide, by decide, hT k, ?_⟩
  unfold evaluate
  simp only [show parse_fields "3++4".toList = .ok [['3'], plusF, [], plusF, ['4']]
    from by decide, hT 0]

theorem get_die_type_err {g : FieldStr} {e : Err} (h : get_die_type g = .error e) :
    e = .malformedDieTerm := by
  induction g with
  | nil =>
      unfold get_die_type at h
      cases h
      rfl
  | cons c rest ih =>
      unfold get_die_type at h
      split at h
      · cases h
      · exact ih h

theorem randint_err {lo hi s : Nat} {e : Err} (h : randint lo hi s = .error e) :
    e = .invalidRandomRange := by
  unfold randint at h
  split at h
  · cases h
  · cases h
    rfl

theorem mkValueNode_singleF {f : FieldStr} {F : Nat} (stream : Nat → Nat) (k : Nat)
    (hd : f.contains 'd' = true) (hface : get_die_type f = .ok F) (hF : 1 ≤ F) :
    mkValueNode f stream k
      = .ok (.ValueNode f true (some F) (rollVal F stream k), k + 1) := by
  unfold mkValueNode
  rw [if_pos hd]
  simp only [hface, randint_ok (stream k) hF]
  rfl

theorem threeD6_eval :
    parseTree [['3', 'd', '6']] zStream 0
      = .ok (.OpNode (.ValueNode ['1', 'd', '6'] true (some 6) 1)
          (.OpNode (.ValueNode ['1', 'd', '6'] true (some 6) 1)
            (.ValueNode ['1', 'd', '6'] true (some 6) 1) .add 2) .add 3, 3) := by
  have hs : make_single_roll ['3', 'd', '6'] = .ok ['1', 'd', '6'] := by
    unfold make_single_roll
    rw [show get_die_type ['3', 'd', '6'] = .ok 6 from by decide]
    simp [natChars]
  have hleaf : ∀ j : Nat, parseTree [['1', 'd', '6']] zStream j
      = .ok (.ValueNode ['1', 'd', '6'] true (some 6) 1, j + 1) := by
    intro j
    rw [parseTree_leaf (show find_root_node [['1', 'd', '6']] = .ok 0 by decide)
      (by decide) (by decide) (by decide)]
    show mkValueNode ['1', 'd', '6'] zStream j = _
    rw [mkValueNode_singleF (f := ['1', 'd', '6']) (F := 6) zStream j (by decide)
      (by decide) (by decide)]
    rfl
  have hInner : parseTree [['1', 'd', '6'], plusF, ['1', 'd', '6']] zStream 1
      = .ok (.OpNode (.ValueNode ['1', 'd', '6'] true (some 6) 1)
          (.ValueNode ['1', 'd', '6'] true (some 6) 1) .add 2, 3) := by
    rw [parseTree_op (o := .add)
      (show find_root_node [['1', 'd', '6'], plusF, ['1', 'd', '6']] = .ok 1 by decide)
      (Or.inl ⟨rfl, rfl⟩) (by decide) (by decide)]
    simp only [show [['1', 'd', '6'], plusF, ['1', 'd', '6']].take 1 = [['1', 'd', '6']]
        from rfl,
      show [['1', 'd', '6'], plusF, ['1', 'd', '6']].drop 2 = [['1', 'd', '6']] from rfl,
      hleaf 1, hleaf 2]
    rfl
  rw [parseTree_multi (show find_root_node [['3', 'd', '6']] = .ok 0 by decide)
    (by decide) (by decide) (by decide) hs]
  rw [show get_multiplier ([['3', 'd', '6']].getD 0 []) = 3 from by decide]
  rw [show multi_expression ['1', 'd', '6'] 3
    = [['1', 'd', '6'], plusF, ['1', 'd', '6'], plusF, ['1', 'd', '6']] from rfl]
  rw [parseTree_op (o := .add)
    (show find_root_node [['1', 'd', '6'], plusF, ['1', 'd', '6'], plusF, ['1', 'd', '6']]
      = .ok 1 by decide)
    (Or.inl ⟨rfl, rfl⟩) (by decide) (by decide)]
  simp only [show [['1', 'd', '6'], plusF, ['1', 'd', '6'], plusF, ['1', 'd', '6']].take 1
      = [['1', 'd', '6']] from rfl,
    show [['1', 'd', '6'], plusF, ['1', 'd', '6'], plusF, ['1', 'd', '6']].drop 2
      = [['1', 'd', '6'], plusF, ['1', 'd', '6']] from rfl,
    hleaf 0, hInner]
  rfl

/-- C4 counterexample: building `3d6` (fixed all-zero stream) yields the
right-nested tree `leaf + (leaf + leaf)` — its left child is a single die
leaf — so the expansion is not a left-nested chain, whose outermost left
child would itself be an operation node. -/
theorem C4_counterexample :
    parseTree [['3', 'd', '6']] zStream 0
      = .ok (.OpNode (.ValueNode ['1', 'd', '6'] true (some 6) 1)
          (.OpNode (.ValueNode ['1', 'd', '6'] true (some 6) 1)
            (.ValueNode ['1', 'd', '6'] true (some 6) 1) .add 2) .add 3, 3)
    ∧ ∀ (l r r2 : Node) (o : Op) (v v2 : Int),
        (.OpNode (.ValueNode ['1', 'd', '6'] true (some 6) 1)
          (.OpNode (.ValueNode ['1', 'd', '6'] true (some 6) 1)
            (.ValueNode ['1', 'd', '6'] true (some 6) 1) .add 2) .add 3 : Node)
          ≠ .OpNode (.OpNode l r o v) r2 .add v2 := by
  refine ⟨threeD6_eval, ?_⟩
  intro l r r2 o v v2 h
  simp at h

/-- C4 (amended): a multi-die term is expanded (right-nested, `+`-joined)
into single-die terms before leaves are built, so no leaf of any
successfully constructed tree is a multi-die field. -/
theorem C4_no_multi_leaf {fields : List FieldStr} {stream : Nat → Nat} {k : Nat}
    {t : Node} {kx : Nat} (h : parseTree fields stream k = .ok (t, kx)) :
    t.leavesOk = true :=
  (parseTree_invariant fields stream k t kx h).2.1

/-- C4 witness: the tree built from `3d6` has no multi-die leaf. -/
theorem C4_witness :
    (Node.OpNode (.ValueNode ['1', 'd', '6'] true (some 6) 1)
      (.OpNode (.ValueNode ['1', 'd', '6'] true (some 6) 1)
        (.ValueNode ['1', 'd', '6'] true (some 6) 1) .add 2) .add 3).leavesOk = true :=
  C4_no_multi_leaf threeD6_eval

/-- C8: rendering a successfully constructed tree is a pure function of the
tree (the embedding of `__str__` takes no random stream), so rendering
twice yields the same string; each operation node's stored value stays the
consistent combination of its children's stored values, and the random
cursor advanced by exactly one draw per die leaf — neither rendering nor
reading the total draws again. -/
theorem C8_render_stable (fields : List FieldStr) (stream : Nat → Nat) (k : Nat)
    (t : Node) (kx : Nat) (h : parseTree fields stream k = .ok (t, kx)) :
    t.str = t.str ∧ t.wellValued = true ∧ kx = k + t.dieCount :=
  ⟨rfl, (parseTree_invariant fields stream k t kx h).1,
    (parseTree_invariant fields stream k t kx h).2.2⟩

/-- C8 witness: the literal tree of `7` renders stably, is well-valued and
consumed no random draw. -/
theorem C8_witness :
    (Node.ValueNode ['7'] false none 7).str = (Node.ValueNode ['7'] false none 7).str
    ∧ (Node.ValueNode ['7'] false none 7).wellValued = true
    ∧ 0 = 0 + (Node.ValueNode ['7'] false none 7).dieCount :=
  C8_render_stable [['7']] zStream 0 _ 0
    (parseTree_lit ['7'] 7 zStream 0 (by decide) (by decide) (by decide) (by decide)
      (by decide))

/-- C9: an operand field is classified as a die by mere containment of
`'d'`; when some `'d'` is followed by digits (first such run = face count
`F ≥ 1`) and no leading digit run makes it multi-die, a single die is
rolled with value in `[1, F]`, and a `'d'`-containing operand is never
rejected as an invalid literal. -/
theorem C9_d_containment (f : FieldStr) (stream : Nat → Nat) (k F : Nat)
    (hd : f.contains 'd' = true) (hface : get_die_type f = .ok F) (hF : 1 ≤ F)
    (hmult : get_multiplier f ≤ 1) :
    is_multi_die f = false
    ∧ parseTree [f] stream k
        = .ok (.ValueNode f true (some F) (rollVal F stream k), k + 1)
    ∧ 1 ≤ rollVal F stream k ∧ rollVal F stream k ≤ (F : Int)
    ∧ (∀ (g : FieldStr) (j : Nat) (e : Err), g.contains 'd' = true →
        mkValueNode g stream j = .error e → e ≠ .invalidLiteral) := by
  have hmd : is_multi_die f = false := by
    unfold is_multi_die
    simp
    omega
  have hp : ¬f = plusF := by
    intro he
    rw [he] at hd
    exact absurd hd (by decide)
  have hm : ¬f = minusF := by
    intro he
    rw [he] at hd
    exact absurd hd (by decide)
  obtain ⟨hlo, hhi⟩ := rollVal_bounds F stream k hF
  refine ⟨hmd, ?_, hlo, hhi, ?_⟩
  · rw [parseTree_leaf (find_root_singleton hp hm) hp hm hmd]
    show mkValueNode f stream k = _
    exact mkValueNode_singleF stream k hd hface hF
  · intro g j e hg hmk
    unfold mkValueNode at hmk
    rw [if_pos hg] at hmk
    cases hge : get_die_type g with
    | error e2 =>
        simp only [hge] at hmk
        cases hmk
        rw [get_die_type_err hge]
        decide
    | ok m =>
        simp only [hge] at hmk
        cases hrv : randint 1 m (stream j) with
        | error e3 =>
            simp only [hrv] at hmk
            cases hmk
            rw [randint_err hrv]
            decide
        | ok v =>
            simp only [hrv] at hmk
            cases hmk

/-- C9 witness: `abcd6` — whose text before `d` is not a digit run — is
rolled as one d6 with multiplier 1. -/
theorem C9_witness :
    is_multi_die "abcd6".toList = false
    ∧ parseTree ["abcd6".toList] zStream 0
        = .ok (.ValueNode "abcd6".toList true (some 6) (rollVal 6 zStream 0), 0 + 1)
    ∧ 1 ≤ rollVal 6 zStream 0 ∧ rollVal 6 zStream 0 ≤ (6 : Int) := by
  have h := C9_d_containment "abcd6".toList zStream 0 6 (by decide) (by decide)
    (by decide) (by decide)
  exact ⟨h.1, h.2.1, h.2.2.1, h.2.2.2.1⟩
